import Mathlib

/-!
Verification of the comparison and aggregation engine of the `bench_runner`
package, shallowly embedded from `bench_runner/plot.py` and
`bench_runner/scripts/generate_results.py`.

Modelling conventions:
* float64 sample values are modelled as exact rationals (`ℚ`);
* the comparison `|v - mean| < m * std` of `remove_outliers` is encoded
  through squares, `(v - mean)^2 < m^2 * var`, which is equivalent because
  both sides of the original comparison are nonnegative (`m = 2` at the one
  call site); this keeps every definition executable over `ℚ`;
* the external significance test `pyperf._utils.is_significant` (a
  third-party dependency, not part of this repository) is a parameter of the
  embedding, returning `(significant, t_score)` exactly as the source
  destructures it;
* file-system and dict state are explicit values threaded through the
  functions that the source mutates in place.
-/

namespace BenchRunner

/-! ## plot.py — the statistical pipeline -/

/-- `np.mean(values)`: the arithmetic mean.  On the empty list NumPy yields
NaN; over `ℚ` the division by zero length gives `0`. -/
def npMean (xs : List ℚ) : ℚ := xs.sum / xs.length

/-- `np.std(values) ** 2`: the population variance (mean squared deviation),
the square of the standard deviation computed by `np.std`. -/
def npVar (xs : List ℚ) : ℚ := (xs.map (fun v => (v - npMean xs) ^ 2)).sum / xs.length

/-- `remove_outliers(values, m)` from plot.py:
`values[abs(values - np.mean(values)) < np.multiply(m, np.std(values))]`.
The test `|v - mean| < m * std` is written squared (see the header note). -/
def remove_outliers (xs : List ℚ) (m : ℚ) : List ℚ :=
  xs.filter (fun v => decide ((v - npMean xs) ^ 2 < m ^ 2 * npVar xs))

/-- `np.outer(ref_values, 1.0 / head_values).flatten()`: row-major outer
product, entry `(i, j)` being `ref[i] * (1 / head[j])`. -/
def ratioOuter (ref head : List ℚ) : List ℚ :=
  ref.flatMap (fun a => head.map (fun b => a * (1 / b)))

/-- `calculate_diffs` from plot.py, generalized over the significance test
`sig` and over the outlier-rejection function `ro`, so that theorems can
express that the rejection function is never consulted on the
not-significant path.  Mirrors:
```
sig, t_score = pyperf._utils.is_significant(ref_values, head_values)
if not sig: return None, 0.0
else:
    if outlier_rejection:
        ref_values = remove_outliers(ref_values)
        head_values = remove_outliers(head_values)
    values = np.outer(ref_values, 1.0 / head_values).flatten()
    values.sort()
    return values, float(values.mean())
```
`np.ndarray.sort` sorts ascending; any ascending sort of the same multiset
of rationals produces the same list, so it is rendered by insertion sort. -/
def calculate_diffs_gen (sig : List ℚ → List ℚ → Bool × ℚ) (ro : List ℚ → List ℚ)
    (ref_values head_values : List ℚ) (outlier_rejection : Bool) :
    Option (List ℚ) × ℚ :=
  if !(sig ref_values head_values).1 then (none, 0)
  else
    let ref' := if outlier_rejection then ro ref_values else ref_values
    let head' := if outlier_rejection then ro head_values else head_values
    let values := List.insertionSort (· ≤ ·) (ratioOuter ref' head')
    (some values, npMean values)

/-- `calculate_diffs` proper: the rejection function is `remove_outliers`
with its default `m = 2`. -/
def calculate_diffs (sig : List ℚ → List ℚ → Bool × ℚ)
    (ref_values head_values : List ℚ) (outlier_rejection : Bool) :
    Option (List ℚ) × ℚ :=
  calculate_diffs_gen sig (fun xs => remove_outliers xs 2)
    ref_values head_values outlier_rejection

/-! ## plot.py — the longitudinal comparison-value cache -/

/-- The cache key built inside `get_comparison_value`:
`",".join((str(ref.filename)[8:], str(r.filename)[8:], base))`. -/
def comparison_key (refFilename rFilename base : String) : String :=
  String.intercalate "," [refFilename.drop 8, rFilename.drop 8, base]

/-- `get_comparison_value` from plot.py over an explicit cache state (the
JSON-backed dict `data`).  On a hit the stored value is returned with the
cache unchanged; on a miss `compute` (which wraps
`BenchmarkComparison(...).hpt_percentile_float(99)`, code outside this
repository) is invoked, its value stored and returned.  The dict is an
association list queried by `List.lookup`; the final component counts how
many times `compute` was invoked during the call (0 or 1). -/
def get_comparison_value (data : List (String × ℚ)) (key : String)
    (compute : Unit → ℚ) : ℚ × List (String × ℚ) × Nat :=
  match data.lookup key with
  | some v => (v, data, 0)
  | none =>
    let v := compute ()
    (v, (key, v) :: data, 1)

/-! ## Theorems: claims C1 and C2 -/

/-- **C1.** Whenever the significance test reports not significant,
`calculate_diffs` returns the sentinel `(None, 0.0)` — absent ratio
distribution, zero mean ratio — and the outlier-rejection function is not
applied to either input: the result is the same for every candidate
rejection function `ro` and for both values of the `outlier_rejection`
flag. -/
theorem c1_insignificant_returns_sentinel
    (sig : List ℚ → List ℚ → Bool × ℚ) (ro : List ℚ → List ℚ)
    (ref_values head_values : List ℚ) (flag : Bool)
    (h : (sig ref_values head_values).1 = false) :
    calculate_diffs_gen sig ro ref_values head_values flag = (none, 0) ∧
      calculate_diffs sig ref_values head_values flag = (none, 0) := by
  constructor <;> simp [calculate_diffs, calculate_diffs_gen, h]

/-- Witness for C1 at a concrete input: a test verdict of "not significant"
on `ref = [1, 2]`, `head = [3]` yields the sentinel for both the actual
rejection function and an arbitrary other one. -/
theorem c1_insignificant_returns_sentinel_witness :
    calculate_diffs_gen (fun _ _ => (false, 0)) (fun _ => []) [1, 2] [3] true
        = (none, 0) ∧
      calculate_diffs (fun _ _ => (false, 0)) [1, 2] [3] true = (none, 0) :=
  c1_insignificant_returns_sentinel (fun _ _ => (false, 0)) (fun _ => [])
    [1, 2] [3] true rfl

/-- **C2.** When the significance test reports significant, the returned
ratio distribution is the flattened outer product of the post-rejection
reference values with the reciprocals of the post-rejection head values,
sorted ascending, and the returned mean ratio is the arithmetic mean of
that distribution. -/
theorem c2_significant_ratio_distribution
    (sig : List ℚ → List ℚ → Bool × ℚ) (ref_values head_values : List ℚ)
    (hsig : (sig ref_values head_values).1 = true)
    (_href : ref_values ≠ []) (_hhead : head_values ≠ [])
    (_hrpos : ∀ x ∈ ref_values, 0 < x) (_hhpos : ∀ x ∈ head_values, 0 < x) :
    ∃ ds : List ℚ,
      calculate_diffs sig ref_values head_values true
          = (some ds, ds.sum / ds.length) ∧
        ds.Perm (ratioOuter (remove_outliers ref_values 2)
          (remove_outliers head_values 2)) ∧
        ds.Sorted (· ≤ ·) := by
  refine ⟨List.insertionSort (· ≤ ·) (ratioOuter (remove_outliers ref_values 2)
    (remove_outliers head_values 2)), ?_, ?_, ?_⟩
  · simp [calculate_diffs, calculate_diffs_gen, hsig, npMean]
  · exact List.perm_insertionSort _ _
  · exact List.sorted_insertionSort _ _

/-- Witness for C2 at a concrete input: with a verdict of "significant" on
`ref = [1, 2]`, `head = [1, 2]`, the returned distribution is a sorted
permutation of the post-rejection outer product and its mean is returned. -/
theorem c2_significant_ratio_distribution_witness :
    ∃ ds : List ℚ,
      calculate_diffs (fun _ _ => (true, 0)) [1, 2] [1, 2] true
          = (some ds, ds.sum / ds.length) ∧
        ds.Perm (ratioOuter (remove_outliers [1, 2] 2)
          (remove_outliers [1, 2] 2)) ∧
        ds.Sorted (· ≤ ·) := by
  refine c2_significant_ratio_distribution (fun _ _ => (true, 0)) [1, 2] [1, 2]
    rfl (by simp) (by simp) ?_ ?_ <;>
    intro x hx <;> rcases List.mem_pair.mp hx with h | h <;> rw [h] <;> norm_num

/-! ## Theorems: claims C3 and C4 (outlier rejection) -/

/-- Modelled from the claim's words for comparison with the source: keep
exactly the samples that are *not more than* `m` standard deviations from
the mean (with the comparison written squared, as everywhere). -/
def keep_within (xs : List ℚ) (m : ℚ) : List ℚ :=
  xs.filter (fun v => decide ((v - npMean xs) ^ 2 ≤ m ^ 2 * npVar xs))

/-- **C3, counterexample.** On `[0, 0, 0, 0, 5]` the sample `5` lies exactly
2 standard deviations from the mean (mean 1, variance 4, so `(5-1)^2 = 16 =
2^2 * 4`) — not *more than* 2 — yet `remove_outliers` drops it, because the
source keeps only samples *strictly* within `m` standard deviations.  The
code therefore differs from the claimed "removes exactly those more than 2
standard deviations away". -/
theorem c3_boundary_sample_removed :
    remove_outliers [0, 0, 0, 0, 5] 2 ≠ keep_within [0, 0, 0, 0, 5] 2 ∧
      remove_outliers [0, 0, 0, 0, 5] 2 = [0, 0, 0, 0] ∧
      keep_within [0, 0, 0, 0, 5] 2 = [0, 0, 0, 0, 5] := by
  refine ⟨?_, ?_, ?_⟩ <;>
    norm_num [remove_outliers, keep_within, npMean, npVar, List.filter]

/-- **C3 as amended.** `remove_outliers` with `m = 2` keeps exactly the
samples lying *strictly less than* 2 standard deviations from the
sequence's own mean (equivalently, removes exactly those at least 2
standard deviations away), and when the significance test passes,
`calculate_diffs` filters each input sequence independently through
`remove_outliers` — each side with its own mean and variance — before
forming the ratio distribution. -/
theorem c3_rejects_at_least_two_sigma
    (xs : List ℚ) (v : ℚ)
    (sig : List ℚ → List ℚ → Bool × ℚ) (ref_values head_values : List ℚ)
    (hsig : (sig ref_values head_values).1 = true) :
    (v ∈ remove_outliers xs 2 ↔
        v ∈ xs ∧ (v - npMean xs) ^ 2 < 2 ^ 2 * npVar xs) ∧
      (calculate_diffs sig ref_values head_values true).1
        = some (List.insertionSort (· ≤ ·)
            (ratioOuter (remove_outliers ref_values 2)
              (remove_outliers head_values 2))) := by
  constructor
  · simp [remove_outliers, List.mem_filter]
  · simp [calculate_diffs, calculate_diffs_gen, hsig]

/-- Witness for C3 as amended, at `xs = [0, 0, 0, 0, 5]`, `v = 5` and a
concrete significant comparison. -/
theorem c3_rejects_at_least_two_sigma_witness :
    ((5 : ℚ) ∈ remove_outliers [0, 0, 0, 0, 5] 2 ↔
        (5 : ℚ) ∈ ([0, 0, 0, 0, 5] : List ℚ) ∧
          ((5 : ℚ) - npMean [0, 0, 0, 0, 5]) ^ 2
            < 2 ^ 2 * npVar [0, 0, 0, 0, 5]) ∧
      (calculate_diffs (fun _ _ => (true, 0)) [1, 2] [1, 2] true).1
        = some (List.insertionSort (· ≤ ·)
            (ratioOuter (remove_outliers [1, 2] 2) (remove_outliers [1, 2] 2))) :=
  c3_rejects_at_least_two_sigma [0, 0, 0, 0, 5] 5
    (fun _ _ => (true, 0)) [1, 2] [1, 2] rfl

/-- **C4, counterexample.** Outlier rejection is *not* idempotent: on
`[0, 0, 0, 0, 0, 0, 0, 1]` one application keeps the seven zeros (dropping
`1`, which lies beyond 2 standard deviations), but a second application
empties the list, because on a constant list the strict test
`|v - mean| < 2 * std` reads `0 < 0` and fails for every element. -/
theorem c4_remove_outliers_not_idempotent :
    remove_outliers (remove_outliers [0, 0, 0, 0, 0, 0, 0, 1] 2) 2
        ≠ remove_outliers [0, 0, 0, 0, 0, 0, 0, 1] 2 ∧
      remove_outliers [0, 0, 0, 0, 0, 0, 0, 1] 2 = [0, 0, 0, 0, 0, 0, 0] ∧
      remove_outliers (remove_outliers [0, 0, 0, 0, 0, 0, 0, 1] 2) 2 = [] := by
  have h1 : remove_outliers [0, 0, 0, 0, 0, 0, 0, 1] 2 = [0, 0, 0, 0, 0, 0, 0] := by
    norm_num [remove_outliers, npMean, npVar, List.filter]
  have h2 : remove_outliers (remove_outliers [0, 0, 0, 0, 0, 0, 0, 1] 2) 2 = [] := by
    norm_num [remove_outliers, npMean, npVar, List.filter]
  refine ⟨?_, h1, h2⟩
  rw [h2, h1]
  simp

/-- **C5.** The comparison-value cache memoizes.  For a key derived by
`comparison_key` from the reference identity, head identity and base label:
if the key is present in the cache, `get_comparison_value` returns the
stored value with the cache unchanged and without invoking the compute
function; if the key is absent, two successive lookups invoke the compute
function exactly once — the first call stores the value that the second
call returns from the cache. -/
theorem c5_cache_memoizes
    (refFilename rFilename base : String) (data : List (String × ℚ))
    (compute : Unit → ℚ) :
    (∀ v, data.lookup (comparison_key refFilename rFilename base) = some v →
        get_comparison_value data (comparison_key refFilename rFilename base)
          compute = (v, data, 0)) ∧
      (data.lookup (comparison_key refFilename rFilename base) = none →
        (get_comparison_value data
            (comparison_key refFilename rFilename base) compute).2.2 = 1 ∧
          get_comparison_value
              (get_comparison_value data
                (comparison_key refFilename rFilename base) compute).2.1
              (comparison_key refFilename rFilename base) compute
            = ((get_comparison_value data
                  (comparison_key refFilename rFilename base) compute).1,
               (get_comparison_value data
                  (comparison_key refFilename rFilename base) compute).2.1,
               0)) := by
  constructor
  · intro v hv
    simp [get_comparison_value, hv]
  · intro hnone
    simp [get_comparison_value, hnone, List.lookup]

/-- Witness for C5: starting from the empty cache with a compute function
returning 42, the first call invokes compute (count 1) and the second call
returns the stored 42 with the cache unchanged (count 0). -/
theorem c5_cache_memoizes_witness :
    (get_comparison_value []
        (comparison_key "01234567ref.json" "01234567head.json" "base")
        (fun _ => (42 : ℚ))).2.2 = 1 ∧
      get_comparison_value
          (get_comparison_value []
            (comparison_key "01234567ref.json" "01234567head.json" "base")
            (fun _ => (42 : ℚ))).2.1
          (comparison_key "01234567ref.json" "01234567head.json" "base")
          (fun _ => (42 : ℚ))
        = ((get_comparison_value []
              (comparison_key "01234567ref.json" "01234567head.json" "base")
              (fun _ => (42 : ℚ))).1,
           (get_comparison_value []
              (comparison_key "01234567ref.json" "01234567head.json" "base")
              (fun _ => (42 : ℚ))).2.1,
           0) :=
  (c5_cache_memoizes "01234567ref.json" "01234567head.json" "base" []
      (fun _ => (42 : ℚ))).2 rfl

/-- **C4 as amended.** Rejecting outliers twice in a row yields a
subsequence of (in general strictly smaller than, as the counterexample
shows) the result of rejecting once. -/
theorem c4_twice_sublist_once (xs : List ℚ) :
    (remove_outliers (remove_outliers xs 2) 2).Sublist (remove_outliers xs 2) :=
  List.filter_sublist _

/-! ## generate_results.py — `_tuple_to_nested_dicts`

An entry tuple `(f₁, …, fₙ, text)` is modelled as the list of its leading
key fields plus the trailing text, so the tuple's arity is
`keys.length + 1`.  The nested dict is an insertion-ordered association
list whose values are either leaf lists of texts or nested dicts; Python's
dict preserves insertion order, with new keys appended at the end and
existing keys keeping their position, which `upsert` mirrors.  The
failure modes of the source are explicit `Except.error` results: the
arity assertion, the IndexError a key-less tuple would hit, and the
AttributeError hit when a leaf list and a nested dict collide at the same
key. -/

/-- A value of the nested structure: a leaf list of texts or a nested
mapping. -/
inductive NVal (K T : Type) where
  | leaf : List T → NVal K T
  | dict : List (K × NVal K T) → NVal K T

/-- One level of the nested structure: an insertion-ordered mapping. -/
abbrev NLevel (K T : Type) := List (K × NVal K T)

/-- First-occurrence lookup in a level (Python `entry[0] in d` / `d[...]`). -/
def lookupKey {K T : Type} [DecidableEq K] (k : K) : NLevel K T → Option (NVal K T)
  | [] => none
  | (k', v) :: rest => if k = k' then some v else lookupKey k rest

/-- Replace the value at the first occurrence of `k`, or append `(k, v)` at
the end — Python dict assignment/`setdefault` ordering. -/
def upsert {K T : Type} [DecidableEq K] (k : K) (v : NVal K T) :
    NLevel K T → NLevel K T
  | [] => [(k, v)]
  | (k', v') :: rest =>
    if k = k' then (k, v) :: rest else (k', v') :: upsert k v rest

/-- `recurse` from `_tuple_to_nested_dicts`: fold one tuple (key fields
`keys`, trailing `text`) into a level.
```
def recurse(entry, d):
    if len(entry) == 2:
        d.setdefault(entry[0], [])
        if entry[1] not in d[entry[0]]:
            d[entry[0]].append(entry[1])
    else:
        recurse(entry[1:], d.setdefault(entry[0], {}))
```
A tuple with no key fields indexes past the end (IndexError); meeting a
leaf where a dict is needed, or a dict where a leaf list is needed, is the
AttributeError a list/dict method mismatch raises. -/
def insertEntry {K T : Type} [DecidableEq K] [DecidableEq T] :
    List K → T → NLevel K T → Except String (NLevel K T)
  | [], _, _ => Except.error "IndexError"
  | [k], text, lvl =>
    match lookupKey k lvl with
    | none => Except.ok (upsert k (NVal.leaf [text]) lvl)
    | some (NVal.leaf ts) =>
      if text ∈ ts then Except.ok lvl
      else Except.ok (upsert k (NVal.leaf (ts ++ [text])) lvl)
    | some (NVal.dict _) => Except.error "AttributeError"
  | k :: k2 :: rest, text, lvl =>
    match lookupKey k lvl with
    | none =>
      match insertEntry (k2 :: rest) text [] with
      | Except.ok inner => Except.ok (upsert k (NVal.dict inner) lvl)
      | Except.error e => Except.error e
    | some (NVal.dict m) =>
      match insertEntry (k2 :: rest) text m with
      | Except.ok inner => Except.ok (upsert k (NVal.dict inner) lvl)
      | Except.error e => Except.error e
    | some (NVal.leaf _) => Except.error "AttributeError"

/-- `_tuple_to_nested_dicts(entries)` from generate_results.py starting from
the default empty dict.  The arity assertion
`assert len(set(len(x) for x in entries)) == 1` is the `dedup` length test
(arity of an entry = number of key fields + 1 for the text). -/
def tupleToNestedDicts {K T : Type} [DecidableEq K] [DecidableEq T]
    (entries : List (List K × T)) : Except String (NLevel K T) :=
  if ((entries.map (fun e => e.1.length + 1)).dedup).length = 1 then
    entries.foldlM (fun d e => insertEntry e.1 e.2 d) []
  else Except.error "AssertionError"

/-! ### Association-list lemmas -/

theorem lookupKey_upsert_self {K T : Type} [DecidableEq K] (k : K)
    (v : NVal K T) (lvl : NLevel K T) :
    lookupKey k (upsert k v lvl) = some v := by
  induction lvl with
  | nil => simp [upsert, lookupKey]
  | cons p rest ih =>
    obtain ⟨k', v'⟩ := p
    by_cases h : k = k'
    · simp [upsert, h, lookupKey]
    · simp [upsert, h, lookupKey, ih]

theorem upsert_lookup_eq {K T : Type} [DecidableEq K] {k : K}
    {v : NVal K T} {lvl : NLevel K T} (h : lookupKey k lvl = some v) :
    upsert k v lvl = lvl := by
  induction lvl with
  | nil => simp [lookupKey] at h
  | cons p rest ih =>
    obtain ⟨k', v'⟩ := p
    by_cases hk : k = k'
    · subst hk
      simp [lookupKey] at h
      simp [upsert, h]
    · simp [lookupKey, hk] at h
      simp [upsert, hk, ih h]

theorem mem_upsert {K T : Type} [DecidableEq K] {k : K} {v : NVal K T}
    {lvl : NLevel K T} {p : K × NVal K T} (h : p ∈ upsert k v lvl) :
    p = (k, v) ∨ p ∈ lvl := by
  induction lvl with
  | nil => simpa [upsert] using h
  | cons q rest ih =>
    obtain ⟨k', v'⟩ := q
    by_cases hk : k = k'
    · subst hk
      simp [upsert] at h
      rcases h with h | h
      · exact Or.inl h
      · exact Or.inr (List.mem_cons_of_mem _ h)
    · simp [upsert, hk] at h
      rcases h with h | h
      · exact Or.inr (List.mem_cons.mpr (Or.inl h))
      · rcases ih h with h' | h'
        · exact Or.inl h'
        · exact Or.inr (List.mem_cons_of_mem _ h')

theorem lookupKey_mem {K T : Type} [DecidableEq K] {k : K} {v : NVal K T}
    {lvl : NLevel K T} (h : lookupKey k lvl = some v) : (k, v) ∈ lvl := by
  induction lvl with
  | nil => simp [lookupKey] at h
  | cons p rest ih =>
    obtain ⟨k', v'⟩ := p
    by_cases hk : k = k'
    · subst hk
      simp [lookupKey] at h
      rw [h]
      exact List.mem_cons_self _ _
    · simp [lookupKey, hk] at h
      exact List.mem_cons_of_mem _ (ih h)

/-! ### Re-inserting an already-folded tuple is a no-op -/

theorem insertEntry_idem {K T : Type} [DecidableEq K] [DecidableEq T] :
    ∀ (keys : List K) (text : T) (lvl lvl' : NLevel K T),
      insertEntry keys text lvl = Except.ok lvl' →
      insertEntry keys text lvl' = Except.ok lvl' := by
  intro keys
  induction keys with
  | nil =>
    intro text lvl lvl' h
    simp [insertEntry] at h
  | cons k rest ih =>
    cases rest with
    | nil =>
      intro text lvl lvl' h
      cases hl : lookupKey k lvl with
      | none =>
        simp [insertEntry, hl] at h
        subst h
        simp [insertEntry, lookupKey_upsert_self]
      | some val =>
        cases val with
        | leaf ts =>
          by_cases ht : text ∈ ts
          · simp [insertEntry, hl, ht] at h
            subst h
            simp [insertEntry, hl, ht]
          · simp [insertEntry, hl, ht] at h
            subst h
            simp [insertEntry, lookupKey_upsert_self]
        | dict m =>
          simp [insertEntry, hl] at h
    | cons k2 rest2 =>
      intro text lvl lvl' h
      cases hl : lookupKey k lvl with
      | none =>
        cases hi : insertEntry (k2 :: rest2) text [] with
        | error e => simp [insertEntry, hl, hi] at h
        | ok inner =>
          simp [insertEntry, hl, hi] at h
          subst h
          have h2 := ih text [] inner hi
          have h3 := lookupKey_upsert_self k (NVal.dict inner) lvl
          simp [insertEntry, h3, h2, upsert_lookup_eq h3]
      | some val =>
        cases val with
        | leaf ts =>
          simp [insertEntry, hl] at h
        | dict m =>
          cases hi : insertEntry (k2 :: rest2) text m with
          | error e => simp [insertEntry, hl, hi] at h
          | ok m2 =>
            simp [insertEntry, hl, hi] at h
            subst h
            have h2 := ih text m m2 hi
            have h3 := lookupKey_upsert_self k (NVal.dict m2) lvl
            simp [insertEntry, h3, h2, upsert_lookup_eq h3]

/-! ### Uniform arity makes the fold succeed -/

/-- The level is a uniform nested dict of depth `n`: values are leaf lists
at depth 0 and dicts of uniform depth `n` at depth `n + 1`.  Folding tuples
of one shared arity from the empty dict only ever builds such levels. -/
def UniformLvl {K T : Type} : Nat → NLevel K T → Prop
  | 0, lvl => ∀ p ∈ lvl, ∃ ts, p.2 = NVal.leaf ts
  | n + 1, lvl => ∀ p ∈ lvl, ∃ m, p.2 = NVal.dict m ∧ UniformLvl n m

theorem uniformLvl_nil {K T : Type} (n : Nat) :
    UniformLvl n ([] : NLevel K T) := by
  cases n <;> simp [UniformLvl]

theorem insertEntry_ok {K T : Type} [DecidableEq K] [DecidableEq T] :
    ∀ (keys : List K) (text : T) (lvl : NLevel K T), keys ≠ [] →
      UniformLvl (keys.length - 1) lvl →
      ∃ lvl', insertEntry keys text lvl = Except.ok lvl' ∧
        UniformLvl (keys.length - 1) lvl' := by
  intro keys
  induction keys with
  | nil =>
    intro text lvl hne
    exact absurd rfl hne
  | cons k rest ih =>
    cases rest with
    | nil =>
      intro text lvl _ hu
      simp only [List.length_cons, List.length_nil, Nat.add_sub_cancel] at hu ⊢
      cases hl : lookupKey k lvl with
      | none =>
        refine ⟨upsert k (NVal.leaf [text]) lvl, by simp [insertEntry, hl], ?_⟩
        intro p hp
        rcases mem_upsert hp with h | h
        · exact ⟨[text], by rw [h]⟩
        · exact hu p h
      | some val =>
        cases val with
        | leaf ts =>
          by_cases ht : text ∈ ts
          · exact ⟨lvl, by simp [insertEntry, hl, ht], hu⟩
          · refine ⟨upsert k (NVal.leaf (ts ++ [text])) lvl,
              by simp [insertEntry, hl, ht], ?_⟩
            intro p hp
            rcases mem_upsert hp with h | h
            · exact ⟨ts ++ [text], by rw [h]⟩
            · exact hu p h
        | dict m =>
          obtain ⟨ts, hts⟩ := hu _ (lookupKey_mem hl)
          simp at hts
    | cons k2 rest2 =>
      intro text lvl _ hu
      simp only [List.length_cons, Nat.add_sub_cancel] at hu ⊢
      cases hl : lookupKey k lvl with
      | none =>
        obtain ⟨inner, hi, hui⟩ := ih text [] (by simp)
          (by simpa using uniformLvl_nil (K := K) (T := T) rest2.length)
        refine ⟨upsert k (NVal.dict inner) lvl, by simp [insertEntry, hl, hi], ?_⟩
        intro p hp
        rcases mem_upsert hp with h | h
        · exact ⟨inner, by rw [h], by simpa using hui⟩
        · exact hu p h
      | some val =>
        cases val with
        | leaf ts =>
          obtain ⟨m, hm, _⟩ := hu _ (lookupKey_mem hl)
          simp at hm
        | dict m =>
          obtain ⟨m2, hm2, hum2⟩ := hu _ (lookupKey_mem hl)
          simp at hm2
          subst hm2
          obtain ⟨m', hi, hum'⟩ := ih text m (by simp) (by simpa using hum2)
          refine ⟨upsert k (NVal.dict m') lvl, by simp [insertEntry, hl, hi], ?_⟩
          intro p hp
          rcases mem_upsert hp with h | h
          · exact ⟨m', by rw [h], by simpa using hum'⟩
          · exact hu p h

theorem foldInsert_ok {K T : Type} [DecidableEq K] [DecidableEq T] :
    ∀ (es : List (List K × T)) (n : Nat) (lvl : NLevel K T),
      (∀ e ∈ es, e.1.length = n) → n ≠ 0 → UniformLvl (n - 1) lvl →
      ∃ d, es.foldlM (fun d e => insertEntry e.1 e.2 d) lvl = Except.ok d ∧
        UniformLvl (n - 1) d := by
  intro es
  induction es with
  | nil =>
    intro n lvl _ _ hu
    exact ⟨lvl, rfl, hu⟩
  | cons e es' ih =>
    intro n lvl hlen hn hu
    have he : e.1.length = n := hlen e (List.mem_cons_self _ _)
    have hne : e.1 ≠ [] := by
      intro h
      rw [h] at he
      exact hn he.symm
    obtain ⟨lvl2, hi, hu2⟩ := insertEntry_ok e.1 e.2 lvl hne (by rw [he]; exact hu)
    obtain ⟨d, hfold, hud⟩ := ih n lvl2
      (fun x hx => hlen x (List.mem_cons_of_mem _ hx)) hn (by rwa [he] at hu2)
    refine ⟨d, ?_, hud⟩
    rw [List.foldlM_cons, hi]
    exact hfold

/-! ### Dedup facts for the arity assertion -/

theorem dedup_length_one {α : Type} [DecidableEq α] (l : List α) (a : α)
    (hne : l ≠ []) (hall : ∀ x ∈ l, x = a) : l.dedup.length = 1 := by
  have ha : a ∈ l := by
    cases l with
    | nil => exact absurd rfl hne
    | cons b rest =>
      have := hall b (List.mem_cons_self _ _)
      rw [← this]
      exact List.mem_cons_self _ _
  have had : a ∈ l.dedup := List.mem_dedup.mpr ha
  have hnd := List.nodup_dedup l
  cases hd : l.dedup with
  | nil =>
    rw [hd] at had
    simp at had
  | cons b rest =>
    have hb : b = a := hall b (List.mem_dedup.mp (by rw [hd]; exact List.mem_cons_self _ _))
    cases rest with
    | nil => rfl
    | cons c rest2 =>
      have hc : c = a := hall c (List.mem_dedup.mp
        (by rw [hd]; exact List.mem_cons_of_mem _ (List.mem_cons_self _ _)))
      rw [hd] at hnd
      have : b ∉ c :: rest2 := (List.nodup_cons.mp hnd).1
      exact absurd (by rw [hb, ← hc]; exact List.mem_cons_self _ _) this

theorem dedup_length_ne_one {α : Type} [DecidableEq α] {l : List α} {a b : α}
    (ha : a ∈ l) (hb : b ∈ l) (hab : a ≠ b) : l.dedup.length ≠ 1 := by
  intro h
  obtain ⟨c, hc⟩ := List.length_eq_one.mp h
  have ha' : a ∈ l.dedup := List.mem_dedup.mpr ha
  have hb' : b ∈ l.dedup := List.mem_dedup.mpr hb
  rw [hc] at ha' hb'
  simp at ha' hb'
  exact hab (ha'.trans hb'.symm)

/-! ### Claim C6 -/

/-- **C6, counterexample.** The empty entry list vacuously satisfies "all
tuples share one arity", yet `_tuple_to_nested_dicts([])` raises: the
assertion `len(set(len(x) for x in entries)) == 1` sees an empty set of
arities (size 0, not 1).  So "for every entry list whose tuples all share
one arity, it does not raise" fails at the concrete input `[]`. -/
theorem c6_empty_entries_raise :
    tupleToNestedDicts ([] : List (List (Option String) × String))
        = Except.error "AssertionError" ∧
      ∀ e1 e2 : List (Option String) × String,
        e1 ∈ ([] : List (List (Option String) × String)) →
        e2 ∈ ([] : List (List (Option String) × String)) →
        e1.1.length = e2.1.length := by
  refine ⟨rfl, ?_⟩
  intro e1 e2 h1 _
  simp at h1

/-- **C6 as amended.** Folding two tuples of differing arity raises the
precondition violation (the arity assertion), and folding a *non-empty*
entry list whose tuples all share one arity of at least 2 (at least one
key field before the text, as every tuple the source folds has) does not
raise. -/
theorem c6_arity_precondition {K T : Type} [DecidableEq K] [DecidableEq T] :
    (∀ (entries : List (List K × T)) (e1 e2 : List K × T),
        e1 ∈ entries → e2 ∈ entries → e1.1.length ≠ e2.1.length →
        ∃ msg, tupleToNestedDicts entries = Except.error msg) ∧
      (∀ (entries : List (List K × T)) (n : Nat), entries ≠ [] →
        (∀ e ∈ entries, e.1.length = n) → n ≠ 0 →
        ∃ d, tupleToNestedDicts entries = Except.ok d) := by
  constructor
  · intro entries e1 e2 h1 h2 hne
    have ha : e1.1.length + 1 ∈ entries.map (fun e => e.1.length + 1) :=
      List.mem_map_of_mem _ h1
    have hb : e2.1.length + 1 ∈ entries.map (fun e => e.1.length + 1) :=
      List.mem_map_of_mem _ h2
    have hcond := dedup_length_ne_one ha hb (by omega)
    exact ⟨"AssertionError", by simp [tupleToNestedDicts, hcond]⟩
  · intro entries n hne hall hn
    have hcond : ((entries.map (fun e => e.1.length + 1)).dedup).length = 1 := by
      refine dedup_length_one _ (n + 1) (by simpa using hne) ?_
      intro x hx
      obtain ⟨e, he, hex⟩ := List.mem_map.mp hx
      rw [← hex, hall e he]
    obtain ⟨d, hfold, _⟩ := foldInsert_ok entries n [] hall hn (uniformLvl_nil _)
    exact ⟨d, by simp [tupleToNestedDicts, hcond, hfold]⟩

/-- Witness for C6 as amended: tuples of arity 2 and 3 together raise; the
single arity-4 tuple `([Some "a", None, None], "x")` folds without
raising. -/
theorem c6_arity_precondition_witness :
    (∃ msg, tupleToNestedDicts
        [([some "a"], "x"), ([some "a", none], "y")] = Except.error msg) ∧
      ∃ d, tupleToNestedDicts [([some "a", none, none], "x")] = Except.ok d := by
  constructor
  · exact c6_arity_precondition.1 _ ([some "a"], "x") ([some "a", none], "y")
      (List.mem_cons_self _ _) (List.mem_cons_of_mem _ (List.mem_cons_self _ _))
      (by simp)
  · exact c6_arity_precondition.2 _ 3 (by simp) (by simp) (by simp)

/-! ### Claim C7 -/

/-- Every leaf list reachable inside a value holds no duplicate text. -/
inductive LeavesNodup {K T : Type} : NVal K T → Prop where
  | leaf : ∀ ts : List T, ts.Nodup → LeavesNodup (NVal.leaf ts)
  | dict : ∀ lvl : NLevel K T, (∀ p ∈ lvl, LeavesNodup p.2) →
      LeavesNodup (NVal.dict lvl)

theorem insertEntry_leavesNodup {K T : Type} [DecidableEq K] [DecidableEq T] :
    ∀ (keys : List K) (text : T) (lvl lvl' : NLevel K T),
      insertEntry keys text lvl = Except.ok lvl' →
      (∀ p ∈ lvl, LeavesNodup p.2) → ∀ p ∈ lvl', LeavesNodup p.2 := by
  intro keys
  induction keys with
  | nil =>
    intro text lvl lvl' h
    simp [insertEntry] at h
  | cons k rest ih =>
    cases rest with
    | nil =>
      intro text lvl lvl' h hn
      cases hl : lookupKey k lvl with
      | none =>
        simp [insertEntry, hl] at h
        subst h
        intro p hp
        rcases mem_upsert hp with h | h
        · rw [h]
          exact LeavesNodup.leaf [text] (List.nodup_singleton _)
        · exact hn p h
      | some val =>
        cases val with
        | leaf ts =>
          by_cases ht : text ∈ ts
          · simp [insertEntry, hl, ht] at h
            subst h
            exact hn
          · simp [insertEntry, hl, ht] at h
            subst h
            intro p hp
            rcases mem_upsert hp with h | h
            · rw [h]
              have hts : ts.Nodup := by
                have := hn _ (lookupKey_mem hl)
                cases this with
                | leaf _ h0 => exact h0
              refine LeavesNodup.leaf _ ?_
              rw [List.nodup_append]
              exact ⟨hts, List.nodup_singleton _, by simpa using ht⟩
            · exact hn p h
        | dict m =>
          simp [insertEntry, hl] at h
    | cons k2 rest2 =>
      intro text lvl lvl' h hn
      cases hl : lookupKey k lvl with
      | none =>
        cases hi : insertEntry (k2 :: rest2) text [] with
        | error e => simp [insertEntry, hl, hi] at h
        | ok inner =>
          simp [insertEntry, hl, hi] at h
          subst h
          intro p hp
          rcases mem_upsert hp with h | h
          · rw [h]
            exact LeavesNodup.dict inner (ih text [] inner hi (by simp))
          · exact hn p h
      | some val =>
        cases val with
        | leaf ts =>
          simp [insertEntry, hl] at h
        | dict m =>
          cases hi : insertEntry (k2 :: rest2) text m with
          | error e => simp [insertEntry, hl, hi] at h
          | ok m2 =>
            simp [insertEntry, hl, hi] at h
            subst h
            intro p hp
            rcases mem_upsert hp with h | h
            · rw [h]
              have hm : ∀ q ∈ m, LeavesNodup q.2 := by
                have := hn _ (lookupKey_mem hl)
                cases this with
                | dict _ h0 => exact h0
              exact LeavesNodup.dict m2 (ih text m m2 hi hm)
            · exact hn p h

theorem exceptBind_ok_iff {ε α β : Type} {x : Except ε α} {f : α → Except ε β}
    {b : β} : (x >>= f) = Except.ok b ↔ ∃ a, x = Except.ok a ∧ f a = Except.ok b := by
  cases x with
  | error e => simp [Bind.bind, Except.bind]
  | ok a => simp [Bind.bind, Except.bind]

theorem foldInsert_leavesNodup {K T : Type} [DecidableEq K] [DecidableEq T] :
    ∀ (es : List (List K × T)) (lvl d : NLevel K T),
      es.foldlM (fun d e => insertEntry e.1 e.2 d) lvl = Except.ok d →
      (∀ p ∈ lvl, LeavesNodup p.2) → ∀ p ∈ d, LeavesNodup p.2 := by
  intro es
  induction es with
  | nil =>
    intro lvl d h hn
    rw [List.foldlM_nil] at h
    injection h with h'
    rwa [← h']
  | cons e es' ih =>
    intro lvl d h hn
    rw [List.foldlM_cons] at h
    obtain ⟨lvl2, hi, hrest⟩ := exceptBind_ok_iff.mp h
    exact ih lvl2 d hrest (insertEntry_leavesNodup e.1 e.2 lvl lvl2 hi hn)

/-- **C7.** Leaf insertion in the directory-index fold is idempotent:
folding the same tuple a second time leaves the built structure unchanged
(in particular folding a list that ends in a duplicated tuple gives
exactly the structure of the list with the duplicate dropped), and every
leaf list of a successfully built structure contains each text at most
once. -/
theorem c7_leaf_insertion_idempotent {K T : Type} [DecidableEq K]
    [DecidableEq T] :
    (∀ (es : List (List K × T)) (e : List K × T) (d : NLevel K T),
        tupleToNestedDicts (es ++ [e]) = Except.ok d →
        tupleToNestedDicts (es ++ [e, e]) = Except.ok d) ∧
      (∀ (es : List (List K × T)) (d : NLevel K T),
        tupleToNestedDicts es = Except.ok d → ∀ p ∈ d, LeavesNodup p.2) := by
  constructor
  · intro es e d h
    by_cases hcond : (((es ++ [e]).map (fun x => x.1.length + 1)).dedup).length = 1
    · have hcond2 :
          (((es ++ [e, e]).map (fun x => x.1.length + 1)).dedup).length = 1 := by
        have hfin : ((es ++ [e, e]).map (fun x => x.1.length + 1)).toFinset
            = ((es ++ [e]).map (fun x => x.1.length + 1)).toFinset := by
          simp [List.toFinset_append]
        have := List.card_toFinset ((es ++ [e, e]).map (fun x => x.1.length + 1))
        rw [hfin, List.card_toFinset, hcond] at this
        exact this.symm
      rw [tupleToNestedDicts, if_pos hcond, List.foldlM_append] at h
      obtain ⟨d0, h0, h1'⟩ := exceptBind_ok_iff.mp h
      rw [List.foldlM_cons] at h1'
      obtain ⟨dd, hdd, hpure⟩ := exceptBind_ok_iff.mp h1'
      rw [List.foldlM_nil] at hpure
      injection hpure with hpure'
      have h1 : insertEntry e.1 e.2 d0 = Except.ok d := by
        rw [hpure'] at hdd
        exact hdd
      have h2 : insertEntry e.1 e.2 d = Except.ok d := insertEntry_idem _ _ _ _ h1
      rw [tupleToNestedDicts, if_pos hcond2, List.foldlM_append, h0]
      refine exceptBind_ok_iff.mpr ⟨d0, rfl, ?_⟩
      rw [List.foldlM_cons]
      refine exceptBind_ok_iff.mpr ⟨d, h1, ?_⟩
      rw [List.foldlM_cons]
      refine exceptBind_ok_iff.mpr ⟨d, h2, ?_⟩
      rw [List.foldlM_nil]
      rfl
    · rw [tupleToNestedDicts, if_neg hcond] at h
      simp at h
  · intro es d h
    rw [tupleToNestedDicts] at h
    by_cases hcond : ((es.map (fun e => e.1.length + 1)).dedup).length = 1
    · rw [if_pos hcond] at h
      exact foldInsert_leavesNodup es [] d h (by simp)
    · rw [if_neg hcond] at h
      simp at h

/-- Witness for C7 at the spec's concrete example: folding
`[("a", None, None, "x"), ("a", None, None, "x")]` (a duplicated leaf text)
produces the same structure as folding the tuple once — a single leaf list
`["x"]`, not duplicated. -/
theorem c7_leaf_insertion_idempotent_witness :
    tupleToNestedDicts
        [([some "a", none, none], "x"), ([some "a", none, none], "x")]
      = Except.ok [(some "a", NVal.dict [(none,
          NVal.dict [((none : Option String), NVal.leaf ["x"])])])] :=
  c7_leaf_insertion_idempotent.1 [] ([some "a", none, none], "x") _ rfl

/-! ## Claim C8 -/

/-- **C8.** `calculate_diffs` performs no emptiness check: an empty sample
sequence flows straight into the significance test (whose verdict decides
the branch taken, so the test *is* invoked), and when the test reports
significant the function returns an empty ratio distribution whose NumPy
mean is NaN (the `0` of the exact model) — never an `InsufficientData`
condition raised before the test. -/
theorem c8_empty_input_reaches_significance_test :
    calculate_diffs (fun _ _ => (true, 0)) [] [] true = (some [], 0) ∧
      calculate_diffs (fun _ _ => (true, 0)) [5] [] true = (some [], 0) ∧
      calculate_diffs (fun _ _ => (false, 0)) [] [] true = (none, 0) := by
  refine ⟨?_, ?_, ?_⟩ <;>
    norm_num [calculate_diffs, calculate_diffs_gen, remove_outliers, ratioOuter,
      npMean, npVar, List.filter]

/-! ## generate_results.py — staleness pruning in save_generated_results

A directory entry is modelled as the pair (stem, suffix) of `pathlib`'s
split of the file name, with characters as explicit lists so every string
operation is structural.  The loop modelled (per result):
```
for filename in result.filename.parent.iterdir():
    match = re.match(r"(?P<root>.*)-vs-(?P<base>.*)", filename.stem)
    if match is not None:
        if (match.group("root") == result.filename.stem
            and match.group("base") not in result.bases
           ) or not (filename.parent / (match.group("root") + ".json")).exists():
            filename.unlink()
```
-/

/-- A directory entry: (stem, suffix), e.g. `("bm-...-vs-base", ".md")`. -/
abbrev DirFile := List Char × List Char

/-- The suffix of primary result files. -/
def jsonSuffix : List Char := ['.', 'j', 's', 'o', 'n']

/-- `re.match(r"(?P<root>.*)-vs-(?P<base>.*)", stem)`: the greedy `.*`
splits at the *last* occurrence of `-vs-`; `none` when the separator does
not occur (the regex does not match). -/
def splitVs : List Char → Option (List Char × List Char)
  | [] => none
  | c :: rest =>
    match splitVs rest with
    | some (root, base) => some (c :: root, base)
    | none =>
      if c = '-' ∧ rest.take 3 = ['v', 's', '-'] then some ([], rest.drop 3)
      else none

/-- The deletion condition, evaluated against the directory contents `cur`
current at the time of the test (an earlier unlink in the same pass is
visible to the `.exists()` check). -/
def shouldDelete (resultStem : List Char) (bases : List (List Char))
    (cur : List DirFile) (f : DirFile) : Bool :=
  match splitVs f.1 with
  | none => false
  | some (root, base) =>
    (decide (root = resultStem) && !(decide (base ∈ bases)))
      || !(decide ((root, jsonSuffix) ∈ cur))

/-- The pruning loop of `save_generated_results` for one result: fold over
the directory listing, unlinking each stale artifact from the current
directory state. -/
def pruneDir (resultStem : List Char) (bases : List (List Char))
    (dir : List DirFile) : List DirFile :=
  dir.foldl
    (fun cur f => if shouldDelete resultStem bases cur f then cur.erase f else cur)
    dir

/-! ### Fold lemmas for the pruning pass -/

theorem pruneFold_subset (resultStem : List Char) (bases : List (List Char)) :
    ∀ (l cur : List DirFile) (x : DirFile),
      x ∈ l.foldl
        (fun cur f => if shouldDelete resultStem bases cur f then cur.erase f else cur)
        cur → x ∈ cur := by
  intro l
  induction l with
  | nil =>
    intro cur x h
    simpa using h
  | cons g l' ih =>
    intro cur x h
    rw [List.foldl_cons] at h
    have h2 := ih _ x h
    by_cases hd : shouldDelete resultStem bases cur g
    · rw [if_pos hd] at h2
      exact List.mem_of_mem_erase h2
    · rwa [if_neg hd] at h2

theorem pruneFold_keeps_pair (resultStem : List Char) (bases : List (List Char)) :
    ∀ (l cur : List DirFile) (x y : DirFile), x ∈ cur → y ∈ cur →
      (∀ cur', y ∈ cur' → shouldDelete resultStem bases cur' x = false) →
      (∀ cur', shouldDelete resultStem bases cur' y = false) →
      x ∈ l.foldl
        (fun cur f => if shouldDelete resultStem bases cur f then cur.erase f else cur)
        cur ∧
        y ∈ l.foldl
          (fun cur f => if shouldDelete resultStem bases cur f then cur.erase f else cur)
          cur := by
  intro l
  induction l with
  | nil =>
    intro cur x y hx hy _ _
    exact ⟨hx, hy⟩
  | cons g l' ih =>
    intro cur x y hx hy hkx hky
    rw [List.foldl_cons]
    by_cases hd : shouldDelete resultStem bases cur g
    · rw [if_pos hd]
      have hgy : y ≠ g := by
        intro h
        rw [← h] at hd
        rw [hky cur] at hd
        exact Bool.false_ne_true hd
      have hgx : x ≠ g := by
        intro h
        rw [← h] at hd
        rw [hkx cur hy] at hd
        exact Bool.false_ne_true hd
      exact ih _ x y ((List.mem_erase_of_ne hgx).mpr hx)
        ((List.mem_erase_of_ne hgy).mpr hy) hkx hky
    · rw [if_neg hd]
      exact ih _ x y hx hy hkx hky

theorem pruneFold_deletes (resultStem : List Char) (bases : List (List Char)) :
    ∀ (l cur : List DirFile) (x : DirFile), cur.Nodup →
      (∀ cur', cur' ⊆ cur → shouldDelete resultStem bases cur' x = true) →
      x ∈ l →
      x ∉ l.foldl
        (fun cur f => if shouldDelete resultStem bases cur f then cur.erase f else cur)
        cur := by
  intro l
  induction l with
  | nil =>
    intro cur x _ _ hmem
    simp at hmem
  | cons g l' ih =>
    intro cur x hnd hdel hmem
    rw [List.foldl_cons]
    by_cases hgx : g = x
    · subst hgx
      rw [hdel cur (fun a ha => ha), if_pos rfl]
      intro hfin
      have := pruneFold_subset resultStem bases l' _ g hfin
      exact hnd.not_mem_erase this
    · have hmem' : x ∈ l' := by
        rcases List.mem_cons.mp hmem with h | h
        · exact absurd h.symm hgx
        · exact h
      by_cases hd : shouldDelete resultStem bases cur g
      · rw [if_pos hd]
        exact ih _ x (hnd.erase g)
          (fun cur' hsub => hdel cur' (fun a ha => List.erase_subset _ _ (hsub ha)))
          hmem'
      · rw [if_neg hd]
        exact ih _ x hnd hdel hmem'

/-! ### Claim C9 -/

/-- **C9.** Staleness pruning is exact.  For an artifact `f` in the
directory whose stem parses as `root ++ "-vs-" ++ base`:
* if `root` is the owning result's stem, `base` is still in the result's
  base set, and the primary result file `root + ".json"` is present (its
  own stem containing no `-vs-`, as primary results' stems do not), then
  the pass leaves both the artifact and the primary file in place;
* if `root` is the owning result's stem but `base` is no longer in the
  base set, the artifact is deleted;
* if the corresponding primary result file does not exist, the artifact is
  deleted. -/
theorem c9_staleness_pruning_exact
    (resultStem : List Char) (bases : List (List Char)) (dir : List DirFile)
    (f : DirFile) (root base : List Char) (hnd : dir.Nodup) (hmem : f ∈ dir)
    (hsplit : splitVs f.1 = some (root, base)) :
    (root = resultStem → base ∈ bases → (root, jsonSuffix) ∈ dir →
        splitVs root = none →
        f ∈ pruneDir resultStem bases dir ∧
          (root, jsonSuffix) ∈ pruneDir resultStem bases dir) ∧
      (root = resultStem → base ∉ bases →
        f ∉ pruneDir resultStem bases dir) ∧
      ((root, jsonSuffix) ∉ dir → f ∉ pruneDir resultStem bases dir) := by
  refine ⟨?_, ?_, ?_⟩
  · intro hroot hbase hjson hplain
    subst hroot
    refine pruneFold_keeps_pair root bases dir dir f (root, jsonSuffix)
      hmem hjson ?_ ?_
    · intro cur' hy
      simp [shouldDelete, hsplit, hbase, hy]
    · intro cur'
      simp [shouldDelete, hplain]
  · intro hroot hbase
    subst hroot
    refine pruneFold_deletes root bases dir dir f hnd ?_ hmem
    intro cur' _
    simp [shouldDelete, hsplit, hbase]
  · intro hjson
    refine pruneFold_deletes resultStem bases dir dir f hnd ?_ hmem
    intro cur' hsub
    have : (root, jsonSuffix) ∉ cur' := fun h => hjson (hsub h)
    simp [shouldDelete, hsplit, this]

/-- Witness for C9, the spec's concrete scenario: a result `res1` with
artifacts for bases `{"base", "3.10.4"}` and the configured base set
reduced to `{"base"}`.  The pass deletes the `3.10.4` artifact and leaves
the `base` artifact and the primary file `res1.json` untouched. -/
theorem c9_staleness_pruning_exact_witness :
    ("res1-vs-base".toList, ".md".toList) ∈
        pruneDir "res1".toList ["base".toList]
          [("res1".toList, ".json".toList), ("res1-vs-base".toList, ".md".toList),
            ("res1-vs-3.10.4".toList, ".md".toList)] ∧
      ("res1".toList, jsonSuffix) ∈
        pruneDir "res1".toList ["base".toList]
          [("res1".toList, ".json".toList), ("res1-vs-base".toList, ".md".toList),
            ("res1-vs-3.10.4".toList, ".md".toList)] ∧
      ("res1-vs-3.10.4".toList, ".md".toList) ∉
        pruneDir "res1".toList ["base".toList]
          [("res1".toList, ".json".toList), ("res1-vs-base".toList, ".md".toList),
            ("res1-vs-3.10.4".toList, ".md".toList)] := by
  have hkeep := (c9_staleness_pruning_exact "res1".toList ["base".toList]
    [("res1".toList, ".json".toList), ("res1-vs-base".toList, ".md".toList),
      ("res1-vs-3.10.4".toList, ".md".toList)]
    ("res1-vs-base".toList, ".md".toList) "res1".toList "base".toList
    (by decide) (by decide) (by decide)).1 rfl (by decide) (by decide) (by decide)
  have hdel := ((c9_staleness_pruning_exact "res1".toList ["base".toList]
    [("res1".toList, ".json".toList), ("res1-vs-base".toList, ".md".toList),
      ("res1-vs-3.10.4".toList, ".md".toList)]
    ("res1-vs-3.10.4".toList, ".md".toList) "res1".toList "3.10.4".toList
    (by decide) (by decide) (by decide)).2).1 rfl (by decide)
  exact ⟨hkeep.1, hkeep.2, hdel⟩

/-! ## generate_results.py — summarize_results -/

/-- The fields of a result that `summarize_results` reads.  `run_date` is
an ISO date string in the source, compared lexicographically — which on
valid ISO dates coincides with chronological order — so it is modelled as
the day number. -/
structure SummaryResult where
  run_date : Int
  version : String
deriving DecidableEq

/-- `summarize_results(results, bases, n_recent=3, days=3)` from
generate_results.py:
```
earliest = (datetime.date.today() - datetime.timedelta(days=days)).isoformat()
for i, result in enumerate(results):
    if i < n_recent or result.run_date >= earliest or result.version in bases:
        new_results.append(result)
```
`datetime.date.today()` is the ambient `today` parameter. -/
def summarize_results (today : Int) (results : List SummaryResult)
    (bases : List String) (n_recent : Nat) (days : Int) : List SummaryResult :=
  (results.enum.filter (fun p =>
      decide (p.1 < n_recent) || decide (today - days ≤ p.2.run_date) ||
        decide (p.2.version ∈ bases))).map Prod.snd

/-! ### Claim C10 -/

/-- **C10.** For a result list delivered most-recent-first (as the loader
orders it) and containing no future-dated results, the summary view keeps
exactly: the `n_recent` most recent results (the first `n_recent`, which by
sortedness dominate every later entry in run date — the second conjunct),
any result whose run date is within `days` days of today, and any result
whose version is one of the configured bases; no other result appears. -/
theorem c10_summary_view_policy
    (today : Int) (results : List SummaryResult) (bases : List String)
    (n_recent : Nat) (days : Int)
    (hsorted : results.Pairwise (fun a b => b.run_date ≤ a.run_date))
    (hpast : ∀ r ∈ results, r.run_date ≤ today) :
    (∀ r, r ∈ summarize_results today results bases n_recent days ↔
        (r ∈ results.take n_recent ∨
          (r ∈ results ∧ (|today - r.run_date| ≤ days ∨ r.version ∈ bases)))) ∧
      (∀ a ∈ results.take n_recent, ∀ b ∈ results.drop n_recent,
        b.run_date ≤ a.run_date) := by
  constructor
  · intro r
    constructor
    · intro h
      obtain ⟨⟨i, r'⟩, hq, hr⟩ := List.mem_map.mp h
      obtain ⟨henum, hcond⟩ := List.mem_filter.mp hq
      have hr' : r' = r := hr
      subst hr'
      have hget : results[i]? = some r' := List.mem_enum_iff_getElem?.mp henum
      obtain ⟨hlt, hgetl⟩ := List.getElem?_eq_some.mp hget
      have hrmem : r' ∈ results := by
        rw [← hgetl]
        exact List.getElem_mem hlt
      simp only [Bool.or_eq_true, decide_eq_true_eq] at hcond
      rcases hcond with (hi | hdate) | hbase
      · left
        refine List.mem_iff_getElem?.mpr ⟨i, ?_⟩
        rw [List.getElem?_take, if_pos hi]
        exact hget
      · right
        refine ⟨hrmem, Or.inl ?_⟩
        have := hpast r' hrmem
        rw [abs_le]
        omega
      · exact Or.inr ⟨hrmem, Or.inr hbase⟩
    · intro h
      have key : ∀ i : Nat, results[i]? = some r →
          (decide (i < n_recent) || decide (today - days ≤ r.run_date) ||
            decide (r.version ∈ bases)) = true →
          r ∈ summarize_results today results bases n_recent days := by
        intro i hget hcond
        exact List.mem_map.mpr ⟨(i, r),
          List.mem_filter.mpr ⟨List.mem_enum_iff_getElem?.mpr hget, hcond⟩, rfl⟩
      rcases h with h | ⟨hrmem, hcond⟩
      · obtain ⟨i, hget⟩ := List.mem_iff_getElem?.mp h
        rw [List.getElem?_take] at hget
        by_cases hi : i < n_recent
        · rw [if_pos hi] at hget
          exact key i hget (by simp [hi])
        · rw [if_neg hi] at hget
          simp at hget
      · obtain ⟨i, hget⟩ := List.mem_iff_getElem?.mp hrmem
        rcases hcond with hdate | hbase
        · refine key i hget ?_
          have : today - days ≤ r.run_date := by
            rw [abs_le] at hdate
            omega
          simp [this]
        · exact key i hget (by simp [hbase])
  · intro a ha b hb
    obtain ⟨i, hia⟩ := List.mem_iff_getElem?.mp ha
    obtain ⟨j, hjb⟩ := List.mem_iff_getElem?.mp hb
    rw [List.getElem?_take] at hia
    by_cases hi : i < n_recent
    · rw [if_pos hi] at hia
      rw [List.getElem?_drop] at hjb
      obtain ⟨hilt, hgeta⟩ := List.getElem?_eq_some.mp hia
      obtain ⟨hjlt, hgetb⟩ := List.getElem?_eq_some.mp hjb
      have hij : i < n_recent + j := by omega
      have := List.pairwise_iff_getElem.mp hsorted i (n_recent + j) hilt hjlt hij
      rw [hgeta, hgetb] at this
      exact this
    · rw [if_neg hi] at hia
      simp at hia

/-- Witness for C10 with the source's defaults `n_recent = 3`, `days = 3`:
four results dated days 10, 9, 5, 1 (most recent first) with `today = 10`
and bases `["3.10.4"]`; the day-1 result of version "3.10.4" is kept as a
base even though it is old and beyond the three most recent, and the
membership characterization holds for it. -/
theorem c10_summary_view_policy_witness :
    (⟨1, "3.10.4"⟩ : SummaryResult) ∈
        summarize_results 10
          [⟨10, "3.13"⟩, ⟨9, "3.13"⟩, ⟨5, "3.13"⟩, ⟨1, "3.10.4"⟩]
          ["3.10.4"] 3 3 ↔
      ((⟨1, "3.10.4"⟩ : SummaryResult) ∈
          ([⟨10, "3.13"⟩, ⟨9, "3.13"⟩, ⟨5, "3.13"⟩, ⟨1, "3.10.4"⟩] :
            List SummaryResult).take 3 ∨
        ((⟨1, "3.10.4"⟩ : SummaryResult) ∈
            ([⟨10, "3.13"⟩, ⟨9, "3.13"⟩, ⟨5, "3.13"⟩, ⟨1, "3.10.4"⟩] :
              List SummaryResult) ∧
          (|(10 : Int) - (1 : Int)| ≤ 3 ∨ "3.10.4" ∈ ["3.10.4"]))) :=
  (c10_summary_view_policy 10
      [⟨10, "3.13"⟩, ⟨9, "3.13"⟩, ⟨5, "3.13"⟩, ⟨1, "3.10.4"⟩]
      ["3.10.4"] 3 3 (by decide) (by decide)).1 ⟨1, "3.10.4"⟩

end BenchRunner
